import Mathlib

/-!
Verification of the savings-tracker ledger module (src/types.ts and the
main App component).  The data model, validation, sorting, aggregation and
persistence logic are embedded as executable Lean definitions; machine
numbers are modelled exactly (JS doubles as `ℚ` plus the special values
NaN and ±Infinity), strings as Lean `String`.
-/

namespace Yael

/-- The two category tags, from src/types.ts (`enum TransactionType`). -/
inductive TransactionType where
  | myMoney
  | dadsDebt
deriving DecidableEq, Repr

/-- Model of a JavaScript number: NaN, the two infinities, or an exact
finite value.  Finite doubles are modelled as rationals (every finite
double is a rational); rounding is not modelled. -/
inductive JSNum where
  | nan
  | inf
  | ninf
  | fin (q : ℚ)
deriving DecidableEq, Repr

/-- JS `isNaN` on a value that is already a number. -/
def JSNum.isNaN : JSNum → Bool
  | .nan => true
  | _ => false

/-- JS `+` on numbers (exact on finite values; IEEE special-value rules). -/
def JSNum.add : JSNum → JSNum → JSNum
  | .nan, _ => .nan
  | _, .nan => .nan
  | .inf, .ninf => .nan
  | .ninf, .inf => .nan
  | .inf, _ => .inf
  | _, .inf => .inf
  | .ninf, _ => .ninf
  | _, .ninf => .ninf
  | .fin a, .fin b => .fin (a + b)

/-- The finite value of a `JSNum` (0 for the special values). -/
def JSNum.toQ : JSNum → ℚ
  | .fin q => q
  | _ => 0

/-- A ledger entry, from src/types.ts (`interface Transaction`).
`date` is the ISO-8601 date-time string produced by `toISOString`. -/
structure Transaction where
  id : String
  amount : JSNum
  description : String
  date : String
  type : TransactionType
deriving DecidableEq, Repr

/-! ### Model of the JS string primitives used by the component -/

/-- Numeric value of a decimal digit character. -/
def digitVal (c : Char) : ℕ := c.toNat - 48

/-- Splits a character list at the first non-digit, returning the leading
run of digits and the remainder (model of the digit scanning both
`parseFloat` and `JSON.parse` perform). -/
def digitSpan : List Char → List Char × List Char
  | [] => ([], [])
  | c :: t =>
    if c.isDigit then
      let (a, b) := digitSpan t
      (c :: a, b)
    else ([], c :: t)

/-- Accumulating base-10 read of a digit run. -/
def natFromCharsAcc (a : ℕ) : List Char → ℕ
  | [] => a
  | c :: t => natFromCharsAcc (10 * a + digitVal c) t

/-- Base-10 value of a digit run (most significant digit first). -/
def natFromChars (l : List Char) : ℕ := natFromCharsAcc 0 l

/-- `String.prototype.trim`: drop leading and trailing whitespace. -/
def jsTrim (s : String) : String :=
  String.mk (((s.data.dropWhile Char.isWhitespace).reverse.dropWhile Char.isWhitespace).reverse)

/-- Exponent part accepted by `parseFloat` after an `e`/`E`: an optional
sign and a digit run; an absent digit run contributes exponent 0 (the
`e` then falls outside the parsed prefix). -/
def parseFloatExp (cs : List Char) : ℤ :=
  match cs with
  | '+' :: t => (natFromChars (digitSpan t).1 : ℤ)
  | '-' :: t => -(natFromChars (digitSpan t).1 : ℤ)
  | t => (natFromChars (digitSpan t).1 : ℤ)

/-- `parseFloat` body after sign: digits, optional fraction, optional
exponent; NaN when no digit is found at all. -/
def parseFloatNum (cs : List Char) (neg : Bool) : JSNum :=
  let (ip, r1) := digitSpan cs
  let (fp, r2) :=
    match r1 with
    | '.' :: t => digitSpan t
    | _ => ([], r1)
  if ip.isEmpty && fp.isEmpty then .nan
  else
    let mant : ℚ := (natFromChars ip : ℚ) + (natFromChars fp : ℚ) / (10 : ℚ) ^ fp.length
    let ex : ℤ :=
      match r2 with
      | c :: t => if c = 'e' || c = 'E' then parseFloatExp t else 0
      | [] => 0
    let v : ℚ := mant * (10 : ℚ) ^ ex
    .fin (if neg then -v else v)

/-- `parseFloat` body after whitespace and sign: the literal `Infinity`
or a decimal literal. -/
def parseFloatSigned (cs : List Char) (neg : Bool) : JSNum :=
  if cs.take 8 = ['I', 'n', 'f', 'i', 'n', 'i', 't', 'y'] then
    (if neg then .ninf else .inf)
  else parseFloatNum cs neg

/-- Model of JS `parseFloat`: skip leading whitespace, read an optional
sign, then the longest valid decimal (or `Infinity`) literal; NaN when
none is present. -/
def parseFloat (s : String) : JSNum :=
  match s.data.dropWhile Char.isWhitespace with
  | '-' :: t => parseFloatSigned t true
  | '+' :: t => parseFloatSigned t false
  | t => parseFloatSigned t false

/-! ### Ledger store operations (the App component's handlers) -/

/-- The sort comparator of line 106, `(a, b) => new Date(b.date).getTime()
- new Date(a.date).getTime()`: `a` stays before `b` when the comparator
is ≤ 0, i.e. when `b`'s time is ≤ `a`'s.  Dates are the ISO-8601 strings
produced by `toISOString`, on which lexicographic order coincides with
chronological order, so the comparator is modelled by string comparison. -/
def dateGE (a b : Transaction) : Bool := decide (b.date ≤ a.date)

/-- The state update of a successful add (line 106):
`[...prev, newTransaction].sort(comparator)`.  `Array.prototype.sort` is
a stable sort (ES2019), modelled by `List.mergeSort`. -/
def addTransaction (prev : List Transaction) (t : Transaction) : List Transaction :=
  (prev ++ [t]).mergeSort dateGE

/-- `handleAddTransaction` (lines 90-109) as a pure function of the form
state and the freshly generated id and date.  Returns `none` when
validation fails (the alert path: no state change), otherwise the new
collection. -/
def handleAddTransaction (prev : List Transaction) (newAmount newDescription : String)
    (newType : TransactionType) (newId newDate : String) : Option (List Transaction) :=
  let amount := parseFloat newAmount
  if (jsTrim newDescription == "") || amount.isNaN then none
  else some (addTransaction prev ⟨newId, amount, newDescription, newDate, newType⟩)

/-- `handleDeleteTransaction` (lines 111-115), confirmed path:
`prev.filter(tx => tx.id !== id)`. -/
def handleDeleteTransaction (prev : List Transaction) (id : String) : List Transaction :=
  prev.filter (fun tx => tx.id != id)

/-- Modelled from the spec: `delete`'s boolean result ("whether a record
was actually removed") does not exist in src — the handler returns
nothing — so it is modelled as "some record had the deleted id". -/
def deleteRemoved (prev : List Transaction) (id : String) : Bool :=
  prev.any (fun tx => tx.id == id)

/-! ### Aggregator (lines 117-125) -/

/-- `transactions.filter(tx => tx.type === TransactionType.MyMoney)`. -/
def myMoneyTransactions (ts : List Transaction) : List Transaction :=
  ts.filter (fun tx => tx.type == TransactionType.myMoney)

/-- `transactions.filter(tx => tx.type === TransactionType.DadsDebt)`. -/
def dadsDebtTransactions (ts : List Transaction) : List Transaction :=
  ts.filter (fun tx => tx.type == TransactionType.dadsDebt)

/-- The spec's generic `byType(snapshot, type)`; at each of the two tags
it is definitionally the corresponding filter above. -/
def byType (ts : List Transaction) (t : TransactionType) : List Transaction :=
  ts.filter (fun tx => tx.type == t)

/-- `myMoneyTransactions.reduce((sum, tx) => sum + tx.amount, 0)`. -/
def myMoneyTotal (ts : List Transaction) : JSNum :=
  (myMoneyTransactions ts).foldl (fun sum tx => sum.add tx.amount) (.fin 0)

/-- `dadsDebtTransactions.reduce((sum, tx) => sum + tx.amount, 0)`. -/
def dadsDebtTotal (ts : List Transaction) : JSNum :=
  (dadsDebtTransactions ts).foldl (fun sum tx => sum.add tx.amount) (.fin 0)

/-- The spec's generic `totalFor(snapshot, type)`; at each tag it is
definitionally the corresponding total above. -/
def totalFor (ts : List Transaction) (t : TransactionType) : JSNum :=
  (byType ts t).foldl (fun sum tx => sum.add tx.amount) (.fin 0)

/-! ### Persistence: the JSON text layer

`useEffect` saves `JSON.stringify(transactions)` under one localStorage
key (lines 86-88); the `useState` initializer reads it back with
`JSON.parse`, recovering from a missing/empty/unparseable payload with an
empty collection (lines 72-80).  The platform's JSON text encoding is
modelled by an executable serializer and parser over a JSON value type. -/

mutual

/-- A JSON value.  Numbers are the decimal `m * 10 ^ (-e)`; every finite
double is representable this way. -/
inductive Json where
  | null
  | bool (b : Bool)
  | num (m : ℤ) (e : ℕ)
  | str (s : String)
  | arr (elems : JsonList)
  | obj (fields : JsonPairs)

/-- The element list of a JSON array. -/
inductive JsonList where
  | nil
  | cons (head : Json) (tail : JsonList)

/-- The field list of a JSON object. -/
inductive JsonPairs where
  | nil
  | cons (key : String) (val : Json) (tail : JsonPairs)

end

deriving instance DecidableEq for Json, JsonList, JsonPairs

/-- The `"` character. -/
def quoteChar : Char := Char.ofNat 34

/-- The `\` character. -/
def backslashChar : Char := Char.ofNat 92

/-- The keyword `null` as characters. -/
def nullChars : List Char := ['n', 'u', 'l', 'l']

/-- The keyword `true` as characters. -/
def trueChars : List Char := ['t', 'r', 'u', 'e']

/-- The keyword `false` as characters. -/
def falseChars : List Char := ['f', 'a', 'l', 's', 'e']

/-- The opening curly bracket. -/
def lcurly : Char := Char.ofNat 123

/-- The closing curly bracket. -/
def rcurly : Char := Char.ofNat 125

/-- Little-endian base-10 digits of `n` (empty for 0); fuel-based so that
it reduces in the kernel. -/
def natDigitsAux : ℕ → ℕ → List ℕ
  | 0, _ => []
  | f + 1, n => if n = 0 then [] else n % 10 :: natDigitsAux f (n / 10)

/-- The character of a decimal digit. -/
def digitChr (d : ℕ) : Char := Char.ofNat (48 + d)

/-- Decimal notation for a natural number. -/
def natChars (n : ℕ) : List Char :=
  if n = 0 then [digitChr 0] else ((natDigitsAux (n + 1) n).map digitChr).reverse

/-- Decimal notation for an integer. -/
def intChars (m : ℤ) : List Char :=
  if m < 0 then '-' :: natChars m.natAbs else natChars m.natAbs

/-- JSON string-body escaping: `"` and `\` are escaped with a backslash,
every other character is emitted as itself. -/
def escChars : List Char → List Char
  | [] => []
  | c :: t =>
    if c = quoteChar || c = backslashChar then backslashChar :: c :: escChars t
    else c :: escChars t

mutual

/-- Serialized text of a JSON value (the model of `JSON.stringify`).
Numbers are emitted in the scientific form `m e- e`, a valid JSON
number spelling of `m * 10 ^ (-e)`. -/
def jsonChars : Json → List Char
  | .null => nullChars
  | .bool true => trueChars
  | .bool false => falseChars
  | .num m e => intChars m ++ 'e' :: '-' :: natChars e
  | .str s => quoteChar :: escChars s.data ++ [quoteChar]
  | .arr .nil => ['[', ']']
  | .arr (.cons x xs) => '[' :: jsonChars x ++ itemsChars xs
  | .obj .nil => [lcurly, rcurly]
  | .obj (.cons k v ps) =>
    lcurly :: (quoteChar :: escChars k.data ++ quoteChar :: ':' :: jsonChars v) ++ pairsChars ps
termination_by structural j => j

/-- Serialized text of the remaining array elements, including the
closing bracket. -/
def itemsChars : JsonList → List Char
  | .nil => [']']
  | .cons x xs => ',' :: jsonChars x ++ itemsChars xs
termination_by structural l => l

/-- Serialized text of the remaining object fields, including the
closing bracket. -/
def pairsChars : JsonPairs → List Char
  | .nil => [rcurly]
  | .cons k v ps =>
    ',' :: (quoteChar :: escChars k.data ++ quoteChar :: ':' :: jsonChars v) ++ pairsChars ps
termination_by structural ps => ps

end

/-- Serialized text of one object field. -/
def pairChars (k : String) (v : Json) : List Char :=
  quoteChar :: escChars k.data ++ quoteChar :: ':' :: jsonChars v

mutual

/-- Structural size of a JSON value, used as the parser's fuel bound. -/
def sizeJ : Json → ℕ
  | .null => 1
  | .bool _ => 1
  | .num _ _ => 1
  | .str _ => 1
  | .arr l => 1 + sizeL l
  | .obj ps => 1 + sizeP ps
termination_by structural j => j

/-- Structural size of an array's elements. -/
def sizeL : JsonList → ℕ
  | .nil => 0
  | .cons x xs => 1 + sizeJ x + sizeL xs
termination_by structural l => l

/-- Structural size of an object's fields. -/
def sizeP : JsonPairs → ℕ
  | .nil => 0
  | .cons _ v ps => 1 + sizeJ v + sizeP ps
termination_by structural ps => ps

end

/-- Reads a JSON string body up to the closing quote, undoing the
backslash escapes. -/
def parseStrBody : List Char → Option (List Char × List Char)
  | [] => none
  | c :: rest =>
    if c = quoteChar then some ([], rest)
    else if c = backslashChar then
      match rest with
      | [] => none
      | d :: rest2 =>
        match parseStrBody rest2 with
        | none => none
        | some (b, r) => some (d :: b, r)
    else
      match parseStrBody rest with
      | none => none
      | some (b, r) => some (c :: b, r)
termination_by structural cs => cs

/-- Reads the digits-fraction part of a JSON number, returning the
combined numerator and the fraction length. -/
def parseNumCore (cs : List Char) : Option ((ℕ × ℕ) × List Char) :=
  if (digitSpan cs).1.isEmpty then none
  else
    match (digitSpan cs).2 with
    | '.' :: t =>
      if (digitSpan t).1.isEmpty then none
      else
        some ((natFromChars (digitSpan cs).1 * 10 ^ (digitSpan t).1.length
          + natFromChars (digitSpan t).1, (digitSpan t).1.length), (digitSpan t).2)
    | _ => some ((natFromChars (digitSpan cs).1, 0), (digitSpan cs).2)

/-- Reads an optional JSON exponent part. -/
def parseExpPart (cs : List Char) : Option (ℤ × List Char) :=
  match cs with
  | [] => some (0, [])
  | c :: t =>
    if c = 'e' || c = 'E' then
      match t with
      | '+' :: u =>
        if (digitSpan u).1.isEmpty then none
        else some ((natFromChars (digitSpan u).1 : ℤ), (digitSpan u).2)
      | '-' :: u =>
        if (digitSpan u).1.isEmpty then none
        else some (-(natFromChars (digitSpan u).1 : ℤ), (digitSpan u).2)
      | u =>
        if (digitSpan u).1.isEmpty then none
        else some ((natFromChars (digitSpan u).1 : ℤ), (digitSpan u).2)
    else some (0, cs)

/-- Reads a non-negative JSON number. -/
def parseNumAbs (cs : List Char) : Option (Json × List Char) :=
  match parseNumCore cs with
  | none => none
  | some ((v, k), r1) =>
    match parseExpPart r1 with
    | none => none
    | some (x, r2) =>
      if (k : ℤ) ≤ x then some (.num (v * 10 ^ (x - k).toNat) 0, r2)
      else some (.num v ((k : ℤ) - x).toNat, r2)

/-- Negates a parsed JSON number. -/
def negNum : Json → Json
  | .num m e => .num (-m) e
  | j => j

/-- Reads a JSON number, with optional leading minus sign. -/
def parseNum (cs : List Char) : Option (Json × List Char) :=
  match cs with
  | [] => none
  | c :: t =>
    if c = '-' then
      match parseNumAbs t with
      | none => none
      | some (j, r) => some (negNum j, r)
    else parseNumAbs (c :: t)

/-- One step of the JSON value parser, over the sub-parsers for the
interiors of non-empty arrays and objects. -/
def parseValStep (pItems : List Char → Option (JsonList × List Char))
    (pPairs : List Char → Option (JsonPairs × List Char)) :
    List Char → Option (Json × List Char)
  | [] => none
  | c :: rest =>
    if c = 'n' then
      (if rest.take 3 = ['u', 'l', 'l'] then some (.null, rest.drop 3) else none)
    else if c = 't' then
      (if rest.take 3 = ['r', 'u', 'e'] then some (.bool true, rest.drop 3) else none)
    else if c = 'f' then
      (if rest.take 4 = ['a', 'l', 's', 'e'] then some (.bool false, rest.drop 4) else none)
    else if c = quoteChar then
      match parseStrBody rest with
      | none => none
      | some (b, r) => some (.str (String.mk b), r)
    else if c = '[' then
      match rest with
      | [] => none
      | d :: r2 =>
        if d = ']' then some (.arr .nil, r2)
        else
          match pItems (d :: r2) with
          | none => none
          | some (l, r) => some (.arr l, r)
    else if c = lcurly then
      match rest with
      | [] => none
      | d :: r2 =>
        if d = rcurly then some (.obj .nil, r2)
        else
          match pPairs (d :: r2) with
          | none => none
          | some (ps, r) => some (.obj ps, r)
    else if c = '-' || c.isDigit then parseNum (c :: rest)
    else none

mutual

/-- Fuel-based JSON value parser (the model of `JSON.parse`; it does not
skip interior whitespace, which the saved payloads never contain). -/
def parseVal : ℕ → List Char → Option (Json × List Char)
  | 0, _ => none
  | f + 1, cs => parseValStep (parseItems f) (parsePairs f) cs

/-- Parses the elements of a non-empty JSON array, up to and including
the closing bracket. -/
def parseItems : ℕ → List Char → Option (JsonList × List Char)
  | 0, _ => none
  | f + 1, cs =>
    match parseVal f cs with
    | none => none
    | some (j, rest) =>
      match rest with
      | [] => none
      | c :: r2 =>
        if c = ',' then
          match parseItems f r2 with
          | none => none
          | some (l, r) => some (.cons j l, r)
        else if c = ']' then some (.cons j .nil, r2)
        else none

/-- Parses the fields of a non-empty JSON object, up to and including
the closing bracket. -/
def parsePairs : ℕ → List Char → Option (JsonPairs × List Char)
  | 0, _ => none
  | f + 1, cs =>
    match cs with
    | [] => none
    | c :: rest =>
      if c = quoteChar then
        match parseStrBody rest with
        | none => none
        | some (kcs, r1) =>
          match r1 with
          | ':' :: r2 =>
            match parseVal f r2 with
            | none => none
            | some (j, r3) =>
              match r3 with
              | [] => none
              | d :: r4 =>
                if d = ',' then
                  match parsePairs f r4 with
                  | none => none
                  | some (ps, r) => some (.cons (String.mk kcs) j ps, r)
                else if d = rcurly then some (.cons (String.mk kcs) j .nil, r4)
                else none
          | _ => none
      else none

end

/-- The serialized text of a JSON value. -/
def stringify (j : Json) : String := String.mk (jsonChars j)

/-- Model of `JSON.parse`: succeeds exactly when the whole text is one
JSON value. -/
def jsonParse (s : String) : Option Json :=
  match parseVal (s.data.length + 1) s.data with
  | some (j, []) => some j
  | _ => none

/-- The `useState` initializer (lines 72-80): a missing or empty stored
payload, or one `JSON.parse` rejects, yields the empty collection; any
payload that parses is used as the state unchanged (no shape check). -/
def loadTransactions (stored : Option String) : Json :=
  match stored with
  | none => .arr .nil
  | some s =>
    if s = "" then .arr .nil
    else
      match jsonParse s with
      | some j => j
      | none => .arr .nil

/-! ### The JSON image of the in-memory collection

`JSON.stringify` applied to the transactions array serializes each record
as an object with its five fields, in insertion order; a non-finite
`amount` (which `isNaN`-only validation can let in) serializes as
`null`. -/

/-- Fuel-based multiplicity of `p` in `n` (0 when `p < 2` or `n = 0`). -/
def multOf (p : ℕ) : ℕ → ℕ → ℕ
  | 0, _ => 0
  | f + 1, n => if 2 ≤ p && n != 0 && n % p == 0 then 1 + multOf p f (n / p) else 0

/-- The least decimal exponent that can clear a denominator `d` made of
2s and 5s. -/
def decExpOf (d : ℕ) : ℕ := max (multOf 2 d d) (multOf 5 d d)

/-- `q` is exactly representable as a decimal `m * 10 ^ (-e)`; every
finite double is.  Phrased through the exponent the encoder uses, so it
is decidable by evaluation. -/
def DecimalQ (q : ℚ) : Prop := (q * (10 : ℚ) ^ decExpOf q.den).den = 1

instance (q : ℚ) : Decidable (DecimalQ q) := by
  unfold DecimalQ; infer_instance

/-- JSON number of a finite double value. -/
def encodeQ (q : ℚ) : Json :=
  .num (q * (10 : ℚ) ^ decExpOf q.den).num (decExpOf q.den)

/-- JSON image of an `amount`: `JSON.stringify` turns NaN and the
infinities into `null`. -/
def encodeAmount : JSNum → Json
  | .fin q => encodeQ q
  | _ => .null

/-- The string stored in the `type` field (src/types.ts enum values). -/
def typeString : TransactionType → String
  | .myMoney => "myMoney"
  | .dadsDebt => "dadsDebt"

/-- JSON image of one transaction record (field order as in the object
literal of lines 98-104). -/
def encodeTransaction (t : Transaction) : Json :=
  .obj (.cons "id" (.str t.id)
    (.cons "amount" (encodeAmount t.amount)
      (.cons "description" (.str t.description)
        (.cons "date" (.str t.date)
          (.cons "type" (.str (typeString t.type)) .nil)))))

/-- JSON image of the collection. -/
def encodeList : List Transaction → JsonList
  | [] => .nil
  | t :: ts => .cons (encodeTransaction t) (encodeList ts)

/-- The payload written by the `useEffect` of lines 86-88:
`JSON.stringify(transactions)`. -/
def saveTransactions (ts : List Transaction) : String :=
  stringify (.arr (encodeList ts))

/-! Reading a stored JSON value back as typed records, used to state that
a loaded payload is the same collection of records. -/

/-- First field of an object with the given key. -/
def fieldOf : JsonPairs → String → Option Json
  | .nil, _ => none
  | .cons k v t, key => if k = key then some v else fieldOf t key

/-- The finite double value of a JSON number. -/
def decodeNumQ : Json → Option ℚ
  | .num m e => some ((m : ℚ) / (10 : ℚ) ^ e)
  | _ => none

/-- The category tag of a stored `type` string. -/
def decodeType : Json → Option TransactionType
  | .str s =>
    if s = "myMoney" then some .myMoney
    else if s = "dadsDebt" then some .dadsDebt
    else none
  | _ => none

/-- A stored object read back as a transaction record. -/
def decodeTransaction (j : Json) : Option Transaction :=
  match j with
  | .obj fs =>
    match fieldOf fs "id", fieldOf fs "amount", fieldOf fs "description",
        fieldOf fs "date", fieldOf fs "type" with
    | some (.str i), some a, some (.str d), some (.str dt), some ty =>
      match decodeNumQ a, decodeType ty with
      | some q, some tp => some ⟨i, .fin q, d, dt, tp⟩
      | _, _ => none
    | _, _, _, _, _ => none
  | _ => none

/-- The elements of a stored array read back as transaction records. -/
def decodeListAux : JsonList → Option (List Transaction)
  | .nil => some []
  | .cons j t =>
    match decodeTransaction j, decodeListAux t with
    | some x, some xs => some (x :: xs)
    | _, _ => none

/-- A stored JSON value read back as a collection of records. -/
def decodeList : Json → Option (List Transaction)
  | .arr l => decodeListAux l
  | _ => none

/-- A successful add followed by the change-triggered `useEffect` write
(lines 86-88): the new state together with the payload written to the
store; a rejected add leaves the state untouched and, since the state
did not change, the effect does not fire again — no write. -/
def addAndPersist (prev : List Transaction) (newAmount newDescription : String)
    (newType : TransactionType) (newId newDate : String) :
    List Transaction × Option String :=
  match handleAddTransaction prev newAmount newDescription newType newId newDate with
  | none => (prev, none)
  | some next => (next, some (saveTransactions next))

/-- One user command against the ledger state. -/
inductive LedgerOp where
  | add (t : Transaction)
  | del (id : String)

/-- The state transition of one command (add: line 106; delete:
line 113). -/
def applyOp (s : List Transaction) : LedgerOp → List Transaction
  | .add t => addTransaction s t
  | .del i => handleDeleteTransaction s i

/-- Along a command sequence, every added record's freshly generated id
(`crypto.randomUUID`, line 99) differs from all ids present at that
moment. -/
def FreshIds : List Transaction → List LedgerOp → Prop
  | _, [] => True
  | s, op :: rest =>
    (match op with
     | .add t => t.id ∉ s.map Transaction.id
     | .del _ => True) ∧ FreshIds (applyOp s op) rest

/-- All ids in the collection are distinct. -/
def IdsNodup (s : List Transaction) : Prop := (s.map Transaction.id).Nodup

/-- The display ordering invariant: dates are nonincreasing from head to
tail (newest first). -/
def SortedByDateDesc (l : List Transaction) : Prop :=
  l.Pairwise (fun a b => dateGE a b = true)

/-- A sequence of successful adds (the state after each add submission
of valid inputs). -/
def applyAdds (s : List Transaction) (ts : List Transaction) : List Transaction :=
  ts.foldl addTransaction s

/-- The character list after a scanned token must not begin with a digit
(the only way the texts this module emits can continue). -/
def DigitStop : List Char → Prop
  | [] => True
  | c :: _ => c.isDigit = false

/-! ### Decimal notation round-trip -/

theorem digitVal_digitChr {d : ℕ} (h : d < 10) : digitVal (digitChr d) = d := by
  interval_cases d <;> decide

theorem isDigit_digitChr {d : ℕ} (h : d < 10) : (digitChr d).isDigit = true := by
  interval_cases d <;> decide

theorem natDigitsAux_lt (f : ℕ) : ∀ n d, d ∈ natDigitsAux f n → d < 10 := by
  induction f with
  | zero => intro n d hd; simp [natDigitsAux] at hd
  | succ f ih =>
    intro n d hd
    by_cases h : n = 0
    · simp [natDigitsAux, h] at hd
    · simp [natDigitsAux, h] at hd
      rcases hd with hd | hd
      · omega
      · exact ih _ _ hd

theorem natFromCharsAcc_nil (a : ℕ) : natFromCharsAcc a [] = a := rfl

theorem natFromCharsAcc_cons (a : ℕ) (c : Char) (t : List Char) :
    natFromCharsAcc a (c :: t) = natFromCharsAcc (10 * a + digitVal c) t := rfl

theorem natFromCharsAcc_append (l1 l2 : List Char) (a : ℕ) :
    natFromCharsAcc a (l1 ++ l2) = natFromCharsAcc (natFromCharsAcc a l1) l2 := by
  induction l1 generalizing a with
  | nil => rfl
  | cons c t ih =>
    rw [List.cons_append, natFromCharsAcc_cons, natFromCharsAcc_cons, ih]

theorem natFromCharsAcc_digits (f : ℕ) :
    ∀ n a, n < f →
      natFromCharsAcc a (((natDigitsAux f n).map digitChr).reverse)
        = a * 10 ^ (natDigitsAux f n).length + n := by
  induction f with
  | zero => intro n a h; omega
  | succ f ih =>
    intro n a h
    by_cases h0 : n = 0
    · simp [natDigitsAux, h0, natFromCharsAcc_nil]
    · have hrec : n / 10 < f := by omega
      have hstep :
          ((natDigitsAux (f + 1) n).map digitChr).reverse
            = ((natDigitsAux f (n / 10)).map digitChr).reverse ++ [digitChr (n % 10)] := by
        simp [natDigitsAux, h0]
      rw [hstep, natFromCharsAcc_append, ih _ _ hrec]
      have hlen : (natDigitsAux (f + 1) n).length = (natDigitsAux f (n / 10)).length + 1 := by
        simp [natDigitsAux, h0]
      have hd : digitVal (digitChr (n % 10)) = n % 10 := digitVal_digitChr (by omega)
      rw [natFromCharsAcc_cons, natFromCharsAcc_nil, hd, hlen, pow_succ, ← mul_assoc]
      have key : ∀ M : ℕ, 10 * (M + n / 10) + n % 10 = M * 10 + n := by
        intro M; omega
      exact key _

theorem natFromChars_natChars (n : ℕ) : natFromChars (natChars n) = n := by
  by_cases h0 : n = 0
  · rw [h0]; decide
  · have h2 := natFromCharsAcc_digits (n + 1) n 0 (by omega)
    rw [natChars, if_neg h0, natFromChars, h2]
    simp

theorem natChars_digits (n : ℕ) : ∀ c ∈ natChars n, c.isDigit = true := by
  intro c hc
  by_cases h0 : n = 0
  · simp [natChars, h0] at hc
    rw [hc]; decide
  · simp [natChars, h0] at hc
    obtain ⟨d, hd, hcd⟩ := hc
    rw [← hcd]
    exact isDigit_digitChr (natDigitsAux_lt _ _ _ hd)

theorem natChars_ne_nil (n : ℕ) : natChars n ≠ [] := by
  by_cases h0 : n = 0
  · simp [natChars, h0]
  · have h1 : natDigitsAux (n + 1) n = n % 10 :: natDigitsAux n (n / 10) := by
      simp [natDigitsAux, h0]
    simp [natChars, h0, h1]

theorem natChars_head_digit (n : ℕ) :
    ∃ c t, natChars n = c :: t ∧ c.isDigit = true := by
  rcases hc : natChars n with _ | ⟨c, t⟩
  · exact absurd hc (natChars_ne_nil n)
  · exact ⟨c, t, rfl, natChars_digits n c (by rw [hc]; exact List.mem_cons_self c t)⟩

theorem digitSpan_append (l r : List Char) (hl : ∀ c ∈ l, c.isDigit = true)
    (hr : DigitStop r) : digitSpan (l ++ r) = (l, r) := by
  induction l with
  | nil =>
    cases r with
    | nil => rfl
    | cons c t =>
      simp [DigitStop] at hr
      simp [digitSpan, hr]
  | cons c t ih =>
    have hc : c.isDigit = true := hl c (List.mem_cons_self c t)
    have ht : ∀ x ∈ t, x.isDigit = true := fun x hx => hl x (List.mem_cons_of_mem c hx)
    simp [digitSpan, hc, ih ht]

theorem digitStop_nil : DigitStop [] := trivial

theorem digitStop_cons {c : Char} {t : List Char} (h : c.isDigit = false) :
    DigitStop (c :: t) := h

/-! ### String body round-trip -/

theorem escChars_nil : escChars [] = [] := rfl

theorem escChars_cons (c : Char) (t : List Char) :
    escChars (c :: t)
      = if c = quoteChar || c = backslashChar then backslashChar :: c :: escChars t
        else c :: escChars t := rfl

theorem parseStrBody_quote (r : List Char) :
    parseStrBody (quoteChar :: r) = some ([], r) := by
  rw [parseStrBody.eq_def]; simp

theorem parseStrBody_bs (c : Char) (r : List Char) :
    parseStrBody (backslashChar :: c :: r)
      = match parseStrBody r with
        | none => none
        | some (b, r2) => some (c :: b, r2) := by
  rw [parseStrBody.eq_def]
  simp
  exact fun h => absurd h (by decide)

theorem parseStrBody_other {c : Char} (r : List Char) (h1 : c ≠ quoteChar)
    (h2 : c ≠ backslashChar) :
    parseStrBody (c :: r)
      = match parseStrBody r with
        | none => none
        | some (b, r2) => some (c :: b, r2) := by
  rw [parseStrBody.eq_def]
  simp only []
  rw [if_neg h1, if_neg h2]

theorem parseStrBody_esc (l r : List Char) :
    parseStrBody (escChars l ++ quoteChar :: r) = some (l, r) := by
  induction l with
  | nil => rw [escChars_nil, List.nil_append, parseStrBody_quote]
  | cons c t ih =>
    rw [escChars_cons]
    by_cases hc : (c = quoteChar || c = backslashChar : Bool) = true
    · rw [if_pos hc, List.cons_append, List.cons_append, parseStrBody_bs, ih]
    · simp only [Bool.or_eq_true, decide_eq_true_eq] at hc
      push_neg at hc
      rw [if_neg (by simp [hc.1, hc.2]), List.cons_append,
        parseStrBody_other _ hc.1 hc.2, ih]

/-! ### Number round-trip -/

theorem parseNumCore_natChars (n : ℕ) (c : Char) (r : List Char)
    (hc : c.isDigit = false) (hdot : c ≠ '.') :
    parseNumCore (natChars n ++ c :: r) = some ((n, 0), c :: r) := by
  have hspan := digitSpan_append (natChars n) (c :: r) (natChars_digits n)
    (digitStop_cons hc)
  rw [parseNumCore, hspan]
  rw [if_neg (by simp [natChars_ne_nil n])]
  split
  · rename_i t heq
    exact absurd (by injection heq) hdot
  · rw [natFromChars_natChars]

theorem parseExpPart_emit (e : ℕ) (r : List Char) (hr : DigitStop r) :
    parseExpPart ('e' :: '-' :: (natChars e ++ r)) = some (-(e : ℤ), r) := by
  have hspan := digitSpan_append (natChars e) r (natChars_digits e) hr
  rw [parseExpPart]
  rw [if_pos (by decide), hspan]
  simp [natChars_ne_nil e, natFromChars_natChars]

theorem parseNumAbs_emit (n e : ℕ) (r : List Char) (hr : DigitStop r) :
    parseNumAbs (natChars n ++ 'e' :: '-' :: (natChars e ++ r))
      = some (.num (n : ℤ) e, r) := by
  have hcore := parseNumCore_natChars n 'e' ('-' :: (natChars e ++ r))
    (by decide) (by decide)
  rw [parseNumAbs, hcore]
  simp only []
  rw [parseExpPart_emit e r hr]
  simp only []
  by_cases he : e = 0
  · subst he
    rw [if_pos (by simp)]
    simp
  · have hcond : ¬(((0 : ℕ) : ℤ) ≤ -(e : ℤ)) := by omega
    rw [if_neg hcond]
    have harg : (((0 : ℕ) : ℤ) - -(e : ℤ)).toNat = e := by omega
    rw [harg]

theorem parseNum_emit (m : ℤ) (e : ℕ) (r : List Char) (hr : DigitStop r) :
    parseNum (intChars m ++ 'e' :: '-' :: (natChars e ++ r))
      = some (.num m e, r) := by
  rcases lt_or_ge m 0 with hm | hm
  · rw [intChars, if_pos hm, List.cons_append, parseNum]
    simp only [if_true]
    rw [parseNumAbs_emit m.natAbs e r hr]
    simp only []
    have habs : -(m.natAbs : ℤ) = m := by omega
    have hneg : negNum (.num (m.natAbs : ℤ) e) = .num (-(m.natAbs : ℤ)) e := rfl
    rw [hneg, habs]
  · rw [intChars, if_neg (not_lt.mpr hm)]
    obtain ⟨c, t, hct, hcd⟩ := natChars_head_digit m.natAbs
    rw [hct, List.cons_append, parseNum]
    rw [if_neg (show ¬(c = '-') by intro h; rw [h] at hcd; exact absurd hcd (by decide))]
    rw [← List.cons_append, ← hct, parseNumAbs_emit m.natAbs e r hr]
    have habs : (m.natAbs : ℤ) = m := by omega
    rw [habs]

/-! ### Parser soundness on emitted text -/

theorem parseVal_succ (f : ℕ) (cs : List Char) :
    parseVal (f + 1) cs = parseValStep (parseItems f) (parsePairs f) cs := rfl

theorem parseItems_succ (f : ℕ) (cs : List Char) :
    parseItems (f + 1) cs
      = (match parseVal f cs with
         | none => none
         | some (j, rest) =>
           match rest with
           | [] => none
           | c :: r2 =>
             if c = ',' then
               match parseItems f r2 with
               | none => none
               | some (l, r) => some (.cons j l, r)
             else if c = ']' then some (.cons j .nil, r2)
             else none) := rfl

theorem parsePairs_succ_quote (f : ℕ) (rest : List Char) :
    parsePairs (f + 1) (quoteChar :: rest)
      = (match parseStrBody rest with
         | none => none
         | some (kcs, r1) =>
           match r1 with
           | ':' :: r2 =>
             match parseVal f r2 with
             | none => none
             | some (j, r3) =>
               match r3 with
               | [] => none
               | d :: r4 =>
                 if d = ',' then
                   match parsePairs f r4 with
                   | none => none
                   | some (ps, r) => some (.cons (String.mk kcs) j ps, r)
                 else if d = rcurly then some (.cons (String.mk kcs) j .nil, r4)
                 else none
           | _ => none) := rfl

theorem parseValStep_null (pI pP) (r : List Char) :
    parseValStep pI pP ('n' :: 'u' :: 'l' :: 'l' :: r) = some (.null, r) := rfl

theorem parseValStep_true (pI pP) (r : List Char) :
    parseValStep pI pP ('t' :: 'r' :: 'u' :: 'e' :: r) = some (.bool true, r) := rfl

theorem parseValStep_false (pI pP) (r : List Char) :
    parseValStep pI pP ('f' :: 'a' :: 'l' :: 's' :: 'e' :: r) = some (.bool false, r) := rfl

theorem parseValStep_quote (pI pP) (cs : List Char) :
    parseValStep pI pP (quoteChar :: cs)
      = match parseStrBody cs with
        | none => none
        | some (b, r) => some (.str (String.mk b), r) := rfl

theorem parseValStep_arr (pI pP) (d : Char) (r2 : List Char) :
    parseValStep pI pP ('[' :: d :: r2)
      = (if d = ']' then some (.arr .nil, r2)
         else
           match pI (d :: r2) with
           | none => none
           | some (l, r) => some (.arr l, r)) := rfl

theorem parseValStep_obj (pI pP) (d : Char) (r2 : List Char) :
    parseValStep pI pP (lcurly :: d :: r2)
      = (if d = rcurly then some (.obj .nil, r2)
         else
           match pP (d :: r2) with
           | none => none
           | some (ps, r) => some (.obj ps, r)) := rfl

theorem parseValStep_digit (pI pP) (c : Char) (cs : List Char)
    (h : c = '-' ∨ c.isDigit = true) :
    parseValStep pI pP (c :: cs) = parseNum (c :: cs) := by
  rcases h with h | h
  · subst h; rfl
  · have hn : ¬(c = 'n') := by intro hh; rw [hh] at h; exact absurd h (by decide)
    have ht : ¬(c = 't') := by intro hh; rw [hh] at h; exact absurd h (by decide)
    have hf : ¬(c = 'f') := by intro hh; rw [hh] at h; exact absurd h (by decide)
    have hq : ¬(c = quoteChar) := by intro hh; rw [hh] at h; exact absurd h (by decide)
    have hb : ¬(c = '[') := by intro hh; rw [hh] at h; exact absurd h (by decide)
    have hc : ¬(c = lcurly) := by intro hh; rw [hh] at h; exact absurd h (by decide)
    rw [parseValStep.eq_def]
    simp only []
    rw [if_neg hn, if_neg ht, if_neg hf, if_neg hq, if_neg hb, if_neg hc,
      if_pos (by simp [h])]

theorem sizeJ_null : sizeJ .null = 1 := rfl

theorem sizeJ_bool (b : Bool) : sizeJ (.bool b) = 1 := rfl

theorem sizeJ_num (m : ℤ) (e : ℕ) : sizeJ (.num m e) = 1 := rfl

theorem sizeJ_str (s : String) : sizeJ (.str s) = 1 := rfl

theorem sizeJ_arr (l : JsonList) : sizeJ (.arr l) = 1 + sizeL l := rfl

theorem sizeJ_obj (ps : JsonPairs) : sizeJ (.obj ps) = 1 + sizeP ps := rfl

theorem sizeL_nil : sizeL .nil = 0 := rfl

theorem sizeL_cons (x : Json) (xs : JsonList) :
    sizeL (.cons x xs) = 1 + sizeJ x + sizeL xs := rfl

theorem sizeP_nil : sizeP .nil = 0 := rfl

theorem sizeP_cons (k : String) (v : Json) (ps : JsonPairs) :
    sizeP (.cons k v ps) = 1 + sizeJ v + sizeP ps := rfl

theorem sizeJ_pos (j : Json) : 1 ≤ sizeJ j := by
  cases j <;> simp [sizeJ_null, sizeJ_bool, sizeJ_num, sizeJ_str, sizeJ_arr, sizeJ_obj]

theorem intChars_head (m : ℤ) :
    ∃ c t, intChars m = c :: t ∧ (c = '-' ∨ c.isDigit = true) := by
  by_cases hm : m < 0
  · exact ⟨'-', natChars m.natAbs, by rw [intChars, if_pos hm], Or.inl rfl⟩
  · obtain ⟨c, t, hct, hcd⟩ := natChars_head_digit m.natAbs
    exact ⟨c, t, by rw [intChars, if_neg hm, hct], Or.inr hcd⟩

theorem jsonChars_head (j : Json) :
    ∃ c t, jsonChars j = c :: t ∧ ¬(c = ']') := by
  cases j with
  | null => exact ⟨'n', _, rfl, by decide⟩
  | bool b => cases b with
    | true => exact ⟨'t', _, rfl, by decide⟩
    | false => exact ⟨'f', _, rfl, by decide⟩
  | num m e =>
    obtain ⟨c, t, hct, hcd⟩ := intChars_head m
    refine ⟨c, t ++ 'e' :: '-' :: natChars e, ?_, ?_⟩
    · show intChars m ++ 'e' :: '-' :: natChars e = _
      rw [hct]; rfl
    · rcases hcd with h | h
      · rw [h]; decide
      · intro hh; rw [hh] at h; exact absurd h (by decide)
  | str s => exact ⟨quoteChar, _, rfl, by decide⟩
  | arr l => cases l with
    | nil => exact ⟨'[', _, rfl, by decide⟩
    | cons x xs => exact ⟨'[', _, rfl, by decide⟩
  | obj ps => cases ps with
    | nil => exact ⟨lcurly, _, rfl, by decide⟩
    | cons k v t => exact ⟨lcurly, _, rfl, by decide⟩

theorem jsonChars_ne_nil (j : Json) : jsonChars j ≠ [] := by
  obtain ⟨c, t, hct, _⟩ := jsonChars_head j
  rw [hct]; exact List.cons_ne_nil c t

theorem digitStop_items (xs : JsonList) (r : List Char) :
    DigitStop (itemsChars xs ++ r) := by
  cases xs with
  | nil => exact digitStop_cons (by decide)
  | cons x t => exact digitStop_cons (by decide)

theorem digitStop_pairs (ps : JsonPairs) (r : List Char) :
    DigitStop (pairsChars ps ++ r) := by
  cases ps with
  | nil => exact digitStop_cons (by decide)
  | cons k v t => exact digitStop_cons (by decide)

/-- Soundness of the parser on every serialized value, by induction on
the fuel: with fuel at least the structural size, the parser consumes
exactly the serialized text and returns the original value. -/
theorem parse_emit (F : ℕ) :
    (∀ j r cs, cs = jsonChars j ++ r → sizeJ j ≤ F → DigitStop r →
      parseVal F cs = some (j, r))
    ∧ (∀ x xs r cs, cs = jsonChars x ++ (itemsChars xs ++ r) →
      1 + sizeJ x + sizeL xs ≤ F → DigitStop r →
      parseItems F cs = some (.cons x xs, r))
    ∧ (∀ k v ps r cs, cs = pairChars k v ++ (pairsChars ps ++ r) →
      1 + sizeJ v + sizeP ps ≤ F → DigitStop r →
      parsePairs F cs = some (.cons k v ps, r)) := by
  induction F with
  | zero =>
    refine ⟨fun j r cs _ hs _ => ?_, fun x xs r cs _ hs _ => ?_,
      fun k v ps r cs _ hs _ => ?_⟩
    · exact absurd hs (by have := sizeJ_pos j; omega)
    · exact absurd hs (by omega)
    · exact absurd hs (by omega)
  | succ f ih =>
    obtain ⟨ihA, ihB, ihC⟩ := ih
    refine ⟨fun j r cs hcs hs hr => ?_, fun x xs r cs hcs hs hr => ?_,
      fun k v ps r cs hcs hs hr => ?_⟩
    · subst hcs
      rw [parseVal_succ]
      cases j with
      | null => rw [show jsonChars .null ++ r = 'n' :: 'u' :: 'l' :: 'l' :: r from rfl,
          parseValStep_null]
      | bool b =>
        cases b with
        | true => rw [show jsonChars (.bool true) ++ r = 't' :: 'r' :: 'u' :: 'e' :: r from rfl,
            parseValStep_true]
        | false =>
          rw [show jsonChars (.bool false) ++ r
              = 'f' :: 'a' :: 'l' :: 's' :: 'e' :: r from rfl, parseValStep_false]
      | num m e =>
        obtain ⟨c, t, hct, hcd⟩ := intChars_head m
        have hshape : jsonChars (.num m e) ++ r
            = c :: (t ++ ('e' :: '-' :: (natChars e ++ r))) := by
          show (intChars m ++ 'e' :: '-' :: natChars e) ++ r = _
          rw [hct]; simp
        rw [hshape, parseValStep_digit _ _ c _ hcd]
        have hback : c :: (t ++ ('e' :: '-' :: (natChars e ++ r)))
            = intChars m ++ 'e' :: '-' :: (natChars e ++ r) := by
          rw [hct]; simp
        rw [hback, parseNum_emit m e r hr]
      | str s =>
        have hshape : jsonChars (.str s) ++ r
            = quoteChar :: (escChars s.data ++ (quoteChar :: r)) := by
          show (quoteChar :: escChars s.data ++ [quoteChar]) ++ r = _
          simp
        rw [hshape, parseValStep_quote, parseStrBody_esc]
      | arr l =>
        cases l with
        | nil =>
          rw [show jsonChars (.arr .nil) ++ r = '[' :: ']' :: r from rfl,
            parseValStep_arr, if_pos rfl]
        | cons x xs =>
          obtain ⟨c, t, hct, hc⟩ := jsonChars_head x
          have hshape : jsonChars (.arr (.cons x xs)) ++ r
              = '[' :: c :: (t ++ (itemsChars xs ++ r)) := by
            show ('[' :: jsonChars x ++ itemsChars xs) ++ r = _
            rw [hct]; simp
          rw [hshape, parseValStep_arr, if_neg hc]
          have hB := ihB x xs r (c :: (t ++ (itemsChars xs ++ r)))
            (by rw [hct]; simp)
            (by rw [sizeJ_arr, sizeL_cons] at hs; omega) hr
          rw [hB]
      | obj ps =>
        cases ps with
        | nil =>
          rw [show jsonChars (.obj .nil) ++ r = lcurly :: rcurly :: r from rfl,
            parseValStep_obj, if_pos rfl]
        | cons k v t =>
          have hshape : jsonChars (.obj (.cons k v t)) ++ r
              = lcurly :: quoteChar :: (escChars k.data
                ++ (quoteChar :: ':' :: jsonChars v ++ (pairsChars t ++ r))) := by
            show (lcurly :: (quoteChar :: escChars k.data
              ++ quoteChar :: ':' :: jsonChars v) ++ pairsChars t) ++ r = _
            simp
          rw [hshape, parseValStep_obj, if_neg (by decide)]
          have hC := ihC k v t r (quoteChar :: (escChars k.data
              ++ (quoteChar :: ':' :: jsonChars v ++ (pairsChars t ++ r))))
            (by rw [pairChars]; simp)
            (by rw [sizeJ_obj, sizeP_cons] at hs; omega) hr
          rw [hC]
    · subst hcs
      rw [parseItems_succ]
      have hA := ihA x (itemsChars xs ++ r) (jsonChars x ++ (itemsChars xs ++ r)) rfl
        (by omega) (digitStop_items xs r)
      rw [hA]
      simp only []
      cases xs with
      | nil =>
        rw [show itemsChars .nil ++ r = ']' :: r from rfl]
        simp
      | cons y ys =>
        have hshape : itemsChars (.cons y ys) ++ r
            = ',' :: (jsonChars y ++ (itemsChars ys ++ r)) := by
          show (',' :: jsonChars y ++ itemsChars ys) ++ r = _
          simp
        rw [hshape]
        simp only []
        have hB := ihB y ys r (jsonChars y ++ (itemsChars ys ++ r)) rfl
          (by rw [sizeL_cons] at hs; omega) hr
        rw [hB]
        simp
    · subst hcs
      have hshape : pairChars k v ++ (pairsChars ps ++ r)
          = quoteChar :: (escChars k.data
            ++ (quoteChar :: (':' :: (jsonChars v ++ (pairsChars ps ++ r))))) := by
        rw [pairChars]; simp
      rw [hshape, parsePairs_succ_quote, parseStrBody_esc]
      simp only []
      have hA := ihA v (pairsChars ps ++ r) (jsonChars v ++ (pairsChars ps ++ r)) rfl
        (by omega) (digitStop_pairs ps r)
      rw [hA]
      simp only []
      cases ps with
      | nil =>
        rw [show pairsChars .nil ++ r = rcurly :: r from rfl]
        simp
        exact fun h => absurd h (by decide)
      | cons k2 v2 ps2 =>
        have hshape2 : pairsChars (.cons k2 v2 ps2) ++ r
            = ',' :: (pairChars k2 v2 ++ (pairsChars ps2 ++ r)) := by
          show (',' :: (quoteChar :: escChars k2.data
            ++ quoteChar :: ':' :: jsonChars v2) ++ pairsChars ps2) ++ r = _
          rw [pairChars]; simp
        rw [hshape2]
        simp only []
        have hC := ihC k2 v2 ps2 r (pairChars k2 v2 ++ (pairsChars ps2 ++ r)) rfl
          (by rw [sizeP_cons] at hs; omega) hr
        rw [hC]
        simp

mutual

theorem sizeJ_le_len : (j : Json) → sizeJ j ≤ (jsonChars j).length
  | .null => by decide
  | .bool b => by cases b <;> decide
  | .num m e => by
    rw [sizeJ_num]
    show 1 ≤ (intChars m ++ 'e' :: '-' :: natChars e).length
    simp
    omega
  | .str s => by
    rw [sizeJ_str]
    show 1 ≤ (quoteChar :: escChars s.data ++ [quoteChar]).length
    simp
  | .arr .nil => by decide
  | .arr (.cons x xs) => by
    have h1 := sizeJ_le_len x
    have h2 := sizeL_le_len xs
    rw [sizeJ_arr, sizeL_cons]
    show _ ≤ ('[' :: jsonChars x ++ itemsChars xs).length
    simp only [List.cons_append, List.length_cons, List.length_append]
    omega
  | .obj .nil => by decide
  | .obj (.cons k v ps) => by
    have h1 := sizeJ_le_len v
    have h2 := sizeP_le_len ps
    rw [sizeJ_obj, sizeP_cons]
    show _ ≤ (lcurly :: (quoteChar :: escChars k.data
      ++ quoteChar :: ':' :: jsonChars v) ++ pairsChars ps).length
    simp only [List.cons_append, List.length_cons, List.length_append]
    omega
termination_by structural j => j

theorem sizeL_le_len : (l : JsonList) → sizeL l + 1 ≤ (itemsChars l).length
  | .nil => by decide
  | .cons x xs => by
    have h1 := sizeJ_le_len x
    have h2 := sizeL_le_len xs
    rw [sizeL_cons]
    show _ ≤ (',' :: jsonChars x ++ itemsChars xs).length
    simp only [List.cons_append, List.length_cons, List.length_append]
    omega
termination_by structural l => l

theorem sizeP_le_len : (ps : JsonPairs) → sizeP ps + 1 ≤ (pairsChars ps).length
  | .nil => by decide
  | .cons k v t => by
    have h1 := sizeJ_le_len v
    have h2 := sizeP_le_len t
    rw [sizeP_cons]
    show _ ≤ (',' :: (quoteChar :: escChars k.data
      ++ quoteChar :: ':' :: jsonChars v) ++ pairsChars t).length
    simp only [List.cons_append, List.length_cons, List.length_append]
    omega
termination_by structural ps => ps

end

/-- `JSON.parse` recovers every value `JSON.stringify` emits. -/
theorem jsonParse_stringify (j : Json) : jsonParse (stringify j) = some j := by
  have hA := (parse_emit ((jsonChars j).length + 1)).1 j [] (jsonChars j)
    (by simp) (by have := sizeJ_le_len j; omega) trivial
  rw [jsonParse]
  rw [show (stringify j).data = jsonChars j from rfl, hA]

/-! ### Decoding the encoded collection -/

theorem decodeQ_encodeQ {q : ℚ} (h : DecimalQ q) : decodeNumQ (encodeQ q) = some q := by
  rw [encodeQ, decodeNumQ]
  congr 1
  have h1 : ((q * (10 : ℚ) ^ decExpOf q.den).num : ℚ) = q * (10 : ℚ) ^ decExpOf q.den :=
    (Rat.den_eq_one_iff _).mp h
  rw [h1]
  field_simp

theorem decodeType_typeString (t : TransactionType) :
    decodeType (.str (typeString t)) = some t := by
  cases t <;> decide

theorem decodeTransaction_encode (t : Transaction) (q : ℚ) (hf : t.amount = .fin q)
    (hd : DecimalQ q) : decodeTransaction (encodeTransaction t) = some t := by
  obtain ⟨i, a, d, dt, tp⟩ := t
  simp only at hf
  subst hf
  rw [encodeTransaction, decodeTransaction]
  simp only []
  have f1 : fieldOf (.cons "id" (.str i)
      (.cons "amount" (encodeAmount (.fin q))
        (.cons "description" (.str d)
          (.cons "date" (.str dt)
            (.cons "type" (.str (typeString tp)) .nil))))) "id" = some (.str i) := by
    rw [fieldOf, if_pos rfl]
  have f2 : fieldOf (.cons "id" (.str i)
      (.cons "amount" (encodeAmount (.fin q))
        (.cons "description" (.str d)
          (.cons "date" (.str dt)
            (.cons "type" (.str (typeString tp)) .nil))))) "amount"
      = some (encodeAmount (.fin q)) := by
    rw [fieldOf, if_neg (by decide), fieldOf, if_pos rfl]
  have f3 : fieldOf (.cons "id" (.str i)
      (.cons "amount" (encodeAmount (.fin q))
        (.cons "description" (.str d)
          (.cons "date" (.str dt)
            (.cons "type" (.str (typeString tp)) .nil))))) "description"
      = some (.str d) := by
    rw [fieldOf, if_neg (by decide), fieldOf, if_neg (by decide), fieldOf, if_pos rfl]
  have f4 : fieldOf (.cons "id" (.str i)
      (.cons "amount" (encodeAmount (.fin q))
        (.cons "description" (.str d)
          (.cons "date" (.str dt)
            (.cons "type" (.str (typeString tp)) .nil))))) "date" = some (.str dt) := by
    rw [fieldOf, if_neg (by decide), fieldOf, if_neg (by decide), fieldOf,
      if_neg (by decide), fieldOf, if_pos rfl]
  have f5 : fieldOf (.cons "id" (.str i)
      (.cons "amount" (encodeAmount (.fin q))
        (.cons "description" (.str d)
          (.cons "date" (.str dt)
            (.cons "type" (.str (typeString tp)) .nil))))) "type"
      = some (.str (typeString tp)) := by
    rw [fieldOf, if_neg (by decide), fieldOf, if_neg (by decide), fieldOf,
      if_neg (by decide), fieldOf, if_neg (by decide), fieldOf, if_pos rfl]
  rw [f1, f2, f3, f4, f5]
  simp only []
  rw [show encodeAmount (.fin q) = encodeQ q from rfl, decodeQ_encodeQ hd,
    decodeType_typeString]

theorem decodeListAux_encodeList (S : List Transaction)
    (h : ∀ t ∈ S, ∃ q, t.amount = .fin q ∧ DecimalQ q) :
    decodeListAux (encodeList S) = some S := by
  induction S with
  | nil => rfl
  | cons t ts ih =>
    obtain ⟨q, hf, hd⟩ := h t (List.mem_cons_self t ts)
    rw [encodeList, decodeListAux]
    rw [decodeTransaction_encode t q hf hd,
      ih (fun x hx => h x (List.mem_cons_of_mem t hx))]

/-! ### Ordering, aggregation and id-uniqueness lemmas -/

theorem dateGE_trans : ∀ a b c : Transaction,
    dateGE a b = true → dateGE b c = true → dateGE a c = true := by
  intro a b c h1 h2
  simp only [dateGE, decide_eq_true_eq] at h1 h2 ⊢
  exact le_trans h2 h1

theorem dateGE_total : ∀ a b : Transaction, (dateGE a b || dateGE b a) = true := by
  intro a b
  simp only [dateGE, Bool.or_eq_true, decide_eq_true_eq]
  exact le_total b.date a.date

theorem sorted_addTransaction (prev : List Transaction) (t : Transaction) :
    SortedByDateDesc (addTransaction prev t) :=
  List.sorted_mergeSort dateGE_trans dateGE_total (prev ++ [t])

theorem sorted_applyAdds (ts : List Transaction) :
    ∀ s, SortedByDateDesc s → SortedByDateDesc (applyAdds s ts) := by
  induction ts with
  | nil => exact fun s hs => hs
  | cons t rest ih =>
    intro s hs
    exact ih (addTransaction s t) (sorted_addTransaction s t)

theorem foldl_add_fin (l : List Transaction) (a : ℚ)
    (h : ∀ t ∈ l, ∃ q, t.amount = .fin q) :
    l.foldl (fun sum tx => JSNum.add sum tx.amount) (.fin a)
      = .fin (a + (l.map (fun t => t.amount.toQ)).sum) := by
  induction l generalizing a with
  | nil => simp
  | cons t ts ih =>
    obtain ⟨q, hq⟩ := h t (List.mem_cons_self t ts)
    rw [List.foldl_cons]
    rw [show JSNum.add (.fin a) t.amount = .fin (a + t.amount.toQ) by
      rw [hq]; rfl]
    rw [ih (a + t.amount.toQ) (fun x hx => h x (List.mem_cons_of_mem t hx))]
    rw [List.map_cons, List.sum_cons]
    ring_nf

theorem idsNodup_addTransaction (s : List Transaction) (t : Transaction)
    (h : IdsNodup s) (hf : t.id ∉ s.map Transaction.id) :
    IdsNodup (addTransaction s t) := by
  have hperm : (addTransaction s t).Perm (s ++ [t]) := List.mergeSort_perm _ _
  have hmap : ((addTransaction s t).map Transaction.id).Perm
      ((s ++ [t]).map Transaction.id) := hperm.map _
  rw [IdsNodup, hmap.nodup_iff]
  simp only [List.map_append, List.map_cons, List.map_nil]
  rw [List.nodup_append]
  refine ⟨h, List.nodup_singleton _, ?_⟩
  intro x hx hx1
  simp only [List.mem_singleton] at hx1
  subst hx1
  exact hf hx

theorem idsNodup_delete (s : List Transaction) (i : String) (h : IdsNodup s) :
    IdsNodup (handleDeleteTransaction s i) :=
  ((List.filter_sublist s).map Transaction.id).nodup h

theorem myMoneyTransactions_eq (ts : List Transaction) :
    myMoneyTransactions ts = byType ts .myMoney := rfl

theorem dadsDebtTransactions_eq (ts : List Transaction) :
    dadsDebtTransactions ts = byType ts .dadsDebt := rfl

theorem myMoneyTotal_eq (ts : List Transaction) :
    myMoneyTotal ts = totalFor ts .myMoney := rfl

theorem dadsDebtTotal_eq (ts : List Transaction) :
    dadsDebtTotal ts = totalFor ts .dadsDebt := rfl

/-! ### The claims -/

/-- C1: for every snapshot and type `T`, `totalFor(snapshot, T)` equals
the sum of the `amount` fields of exactly the records whose type is `T`
(stated for record sets with finite matching amounts, the data model's
amounts), and is 0 on an empty snapshot or when no record matches. -/
theorem claim_C1_totalFor (s : List Transaction) (T : TransactionType)
    (h : ∀ t ∈ s, t.type = T → ∃ q, t.amount = .fin q) :
    totalFor s T = .fin (((byType s T).map (fun t => t.amount.toQ)).sum)
    ∧ (byType s T = [] → totalFor s T = .fin 0) := by
  have hall : ∀ t ∈ byType s T, ∃ q, t.amount = .fin q := by
    intro t ht
    refine h t (List.mem_of_mem_filter ht) ?_
    have := List.of_mem_filter ht
    simpa using this
  constructor
  · rw [totalFor, foldl_add_fin (byType s T) 0 hall, zero_add]
  · intro he
    rw [totalFor, he]
    rfl

/-- C1 witness: the example snapshot of the spec, evaluated. -/
theorem claim_C1_witness :
    totalFor [⟨"a", .fin 200, "g", "d1", .myMoney⟩,
      ⟨"b", .fin (-50), "s", "d2", .dadsDebt⟩] .myMoney = .fin 200 := by
  have h := claim_C1_totalFor [⟨"a", .fin 200, "g", "d1", .myMoney⟩,
      ⟨"b", .fin (-50), "s", "d2", .dadsDebt⟩] .myMoney
    (by
      intro t ht hty
      simp at ht
      rcases ht with rfl | rfl
      · exact ⟨200, rfl⟩
      · exact ⟨-50, rfl⟩)
  rw [h.1]
  congr 1
  simp [byType, JSNum.toQ]

/-- C2: after every sequence of adds with valid inputs, starting from a
collection sorted by date descending, the collection is sorted by date
descending; and one add keeps records with tied dates in the relative
order they entered the sort (the stable sort's rule). -/
theorem claim_C2_sortedInvariant :
    (∀ s ts, SortedByDateDesc s → SortedByDateDesc (applyAdds s ts))
    ∧ (∀ prev (t a b : Transaction), a.date = b.date →
        [a, b].Sublist (prev ++ [t]) → [a, b].Sublist (addTransaction prev t)) := by
  constructor
  · intro s ts hs
    exact sorted_applyAdds ts s hs
  · intro prev t a b hab hsub
    refine List.sublist_mergeSort dateGE_trans dateGE_total ?_ hsub
    refine List.Pairwise.cons ?_ (List.pairwise_singleton _ _)
    intro b' hb'
    simp only [List.mem_singleton] at hb'
    subst hb'
    simp [dateGE, hab]

/-- C2 witness: a two-add run is sorted, and a date tie keeps insertion
order. -/
theorem claim_C2_witness :
    SortedByDateDesc (applyAdds []
      [⟨"a", .nan, "x", "2024-01-02T00:00:00.000Z", .myMoney⟩,
       ⟨"b", .nan, "y", "2024-01-01T00:00:00.000Z", .myMoney⟩])
    ∧ [⟨"c", .nan, "x", "d", .myMoney⟩, ⟨"e", .nan, "y", "d", .myMoney⟩].Sublist
        (addTransaction [⟨"c", .nan, "x", "d", .myMoney⟩]
          ⟨"e", .nan, "y", "d", .myMoney⟩) := by
  constructor
  · exact claim_C2_sortedInvariant.1 []
      [⟨"a", .nan, "x", "2024-01-02T00:00:00.000Z", .myMoney⟩,
       ⟨"b", .nan, "y", "2024-01-01T00:00:00.000Z", .myMoney⟩]
      (by simp [SortedByDateDesc])
  · exact claim_C2_sortedInvariant.2 [⟨"c", .nan, "x", "d", .myMoney⟩]
      ⟨"e", .nan, "y", "d", .myMoney⟩ _ _ rfl (List.Sublist.refl _)

/-- C3 counterexample: the claim says `add` fails whenever the amount
does not parse to a finite number, but the code only checks `isNaN`:
the input string `Infinity` parses to the non-finite Infinity, and the
add succeeds (the state changes). -/
theorem claim_C3_counterexample :
    handleAddTransaction [] "Infinity" "x" .myMoney "id1" "d1" ≠ none
    ∧ parseFloat "Infinity" = .inf := by
  constructor
  · simp only [handleAddTransaction]
    rw [if_neg (by decide)]
    simp
  · decide

/-- C3 (amended): `add` fails exactly when the description is empty or
whitespace-only after trimming, or the amount parses to NaN — non-finite
non-NaN amounts such as Infinity are accepted; on failure the collection
is left unchanged and no persistence write occurs. -/
theorem claim_C3_amended (prev : List Transaction) (amt desc : String)
    (ty : TransactionType) (i d : String) :
    (handleAddTransaction prev amt desc ty i d = none
      ↔ (jsTrim desc = "" ∨ (parseFloat amt).isNaN = true))
    ∧ (handleAddTransaction prev amt desc ty i d = none →
        addAndPersist prev amt desc ty i d = (prev, none)) := by
  have hcond : handleAddTransaction prev amt desc ty i d = none
      ↔ (((jsTrim desc == "") || (parseFloat amt).isNaN) = true) := by
    simp only [handleAddTransaction]
    by_cases hc : ((jsTrim desc == "") || (parseFloat amt).isNaN) = true
    · rw [if_pos hc]
      simp [hc]
    · rw [if_neg hc]
      simp [hc]
  refine ⟨?_, fun h => by rw [addAndPersist, h]⟩
  rw [hcond]
  simp [Bool.or_eq_true, beq_iff_eq]

/-- C3 witness: an empty description is rejected, the state is unchanged
and nothing is written. -/
theorem claim_C3_witness : addAndPersist [] "5" "" .myMoney "i" "d" = ([], none) := by
  have h := claim_C3_amended [] "5" "" .myMoney "i" "d"
  exact h.2 (h.1.mpr (Or.inl (by decide)))

/-- C4: `delete(id)` removes exactly the records with the matching id,
keeps every other record (in order), reports a removal exactly when a
record with that id was present, and is an unchanged no-op reporting no
removal when the id is absent. -/
theorem claim_C4_delete (prev : List Transaction) (i : String) :
    (∀ t ∈ handleDeleteTransaction prev i, t.id ≠ i)
    ∧ (∀ t ∈ prev, t.id ≠ i → t ∈ handleDeleteTransaction prev i)
    ∧ (handleDeleteTransaction prev i).Sublist prev
    ∧ (deleteRemoved prev i = true ↔ ∃ t ∈ prev, t.id = i)
    ∧ (deleteRemoved prev i = false → handleDeleteTransaction prev i = prev) := by
  refine ⟨?_, ?_, List.filter_sublist prev, ?_, ?_⟩
  · intro t ht
    have := List.of_mem_filter ht
    simpa [bne_iff_ne] using this
  · intro t ht hne
    exact List.mem_filter.mpr ⟨ht, by simpa [bne_iff_ne] using hne⟩
  · rw [deleteRemoved]
    simp [List.any_eq_true, beq_iff_eq]
  · intro h
    rw [deleteRemoved] at h
    rw [handleDeleteTransaction]
    apply List.filter_eq_self.mpr
    intro t ht
    have := List.any_eq_false.mp h t ht
    simpa [bne_iff_ne] using this

/-- C4 witness: deleting an absent id leaves the collection unchanged. -/
theorem claim_C4_witness :
    handleDeleteTransaction [⟨"a", .nan, "x", "d", .myMoney⟩] "zz"
      = [⟨"a", .nan, "x", "d", .myMoney⟩] :=
  (claim_C4_delete [⟨"a", .nan, "x", "d", .myMoney⟩] "zz").2.2.2.2 (by decide)

/-- C5: provided every generated id is fresh at its add, id-uniqueness
is preserved by every sequence of add and delete operations. -/
theorem claim_C5_idUnique (ops : List LedgerOp) (s : List Transaction)
    (h0 : IdsNodup s) (hf : FreshIds s ops) :
    IdsNodup (ops.foldl applyOp s) := by
  induction ops generalizing s with
  | nil => exact h0
  | cons op rest ih =>
    rw [List.foldl_cons]
    cases op with
    | add t =>
      obtain ⟨h1, h2⟩ := hf
      exact ih (applyOp s (.add t)) (idsNodup_addTransaction s t h0 h1) h2
    | del i =>
      obtain ⟨h1, h2⟩ := hf
      exact ih (applyOp s (.del i)) (idsNodup_delete s i h0) h2

/-- C5 witness: an add of a fresh id followed by a delete keeps ids
unique. -/
theorem claim_C5_witness :
    IdsNodup ([LedgerOp.add ⟨"a", .nan, "x", "d", .myMoney⟩,
      LedgerOp.del "a"].foldl applyOp []) :=
  claim_C5_idUnique _ [] (by simp [IdsNodup]) ⟨by simp, trivial, trivial⟩

/-- C6: the two per-type filters are disjoint, each preserves the
snapshot's order (they are sublists), and together they cover the
snapshot: membership in the snapshot is membership in one of them. -/
theorem claim_C6_partition (s : List Transaction) :
    (∀ t, t ∈ byType s .myMoney → t ∈ byType s .dadsDebt → False)
    ∧ (byType s .myMoney).Sublist s
    ∧ (byType s .dadsDebt).Sublist s
    ∧ (∀ t, t ∈ s ↔ t ∈ byType s .myMoney ∨ t ∈ byType s .dadsDebt) := by
  refine ⟨?_, List.filter_sublist s, List.filter_sublist s, ?_⟩
  · intro t h1 h2
    have e1 := List.of_mem_filter h1
    have e2 := List.of_mem_filter h2
    simp only [beq_iff_eq] at e1 e2
    rw [e1] at e2
    cases e2
  · intro t
    constructor
    · intro ht
      cases hty : t.type with
      | myMoney => exact Or.inl (List.mem_filter.mpr ⟨ht, by simp [hty]⟩)
      | dadsDebt => exact Or.inr (List.mem_filter.mpr ⟨ht, by simp [hty]⟩)
    · rintro (h | h) <;> exact List.mem_of_mem_filter h

/-- C6 witness: a record of the snapshot lands in one of the two
filters. -/
theorem claim_C6_witness :
    (⟨"a", .nan, "x", "d", .myMoney⟩ : Transaction)
        ∈ byType [⟨"a", .nan, "x", "d", .myMoney⟩] .myMoney
    ∨ (⟨"a", .nan, "x", "d", .myMoney⟩ : Transaction)
        ∈ byType [⟨"a", .nan, "x", "d", .myMoney⟩] .dadsDebt :=
  ((claim_C6_partition [⟨"a", .nan, "x", "d", .myMoney⟩]).2.2.2
    ⟨"a", .nan, "x", "d", .myMoney⟩).mp (List.mem_cons_self _ _)

/-- C7: for every collection whose amounts are finite (decimal, as every
finite double is), parsing the saved text recovers exactly the stored
JSON value, and that value reads back as exactly the original records —
the loaded collection equals the saved one. -/
theorem claim_C7_roundTrip (S : List Transaction)
    (h : ∀ t ∈ S, ∃ q, t.amount = .fin q ∧ DecimalQ q) :
    loadTransactions (some (saveTransactions S)) = .arr (encodeList S)
    ∧ decodeList (loadTransactions (some (saveTransactions S))) = some S := by
  have hne : saveTransactions S ≠ "" := by
    rw [saveTransactions, stringify]
    intro hmk
    have hnil : jsonChars (.arr (encodeList S)) = [] := by
      have := congrArg String.data hmk
      simpa using this
    exact jsonChars_ne_nil _ hnil
  have hload : loadTransactions (some (saveTransactions S)) = .arr (encodeList S) := by
    rw [loadTransactions]
    rw [if_neg hne]
    rw [saveTransactions, jsonParse_stringify]
  refine ⟨hload, ?_⟩
  rw [hload, decodeList, decodeListAux_encodeList S h]

/-- C7 witness: a one-record collection survives the save/load round
trip. -/
theorem claim_C7_witness :
    decodeList (loadTransactions (some (saveTransactions
      [⟨"a", .fin 200, "g", "2024-01-01T00:00:00.000Z", .myMoney⟩])))
      = some [⟨"a", .fin 200, "g", "2024-01-01T00:00:00.000Z", .myMoney⟩] := by
  have hd : DecimalQ (200 : ℚ) := by
    rw [DecimalQ]
    have h1 : (200 : ℚ).den = 1 := by norm_num
    rw [h1, show decExpOf 1 = 0 from by decide]
    simp
  refine (claim_C7_roundTrip _ ?_).2
  intro t ht
  simp at ht
  subst ht
  exact ⟨200, rfl, hd⟩

/-- C8 counterexample: the claim says a stored payload that parses but
has the wrong shape loads as the empty collection, but the code does no
shape validation: the payload `123` parses and is used as the state,
which is not an (empty) collection of records. -/
theorem claim_C8_counterexample :
    loadTransactions (some "123") = .num 123 0
    ∧ Json.num 123 0 ≠ .arr .nil
    ∧ decodeList (.num 123 0) = none := by
  refine ⟨by decide, by decide, rfl⟩

/-- C8 (amended): a stored payload that is missing, empty, or fails to
parse loads as the empty collection with no error; a payload that parses
is used as the state unchanged, with no validation of its shape. -/
theorem claim_C8_amended (stored : Option String) :
    ((stored = none ∨ stored = some "" ∨ (∃ s, stored = some s ∧ jsonParse s = none)) →
      loadTransactions stored = .arr .nil)
    ∧ (∀ s j, stored = some s → s ≠ "" → jsonParse s = some j →
        loadTransactions stored = j) := by
  constructor
  · rintro (rfl | rfl | ⟨s, rfl, hp⟩)
    · rfl
    · rfl
    · rw [loadTransactions]
      by_cases hs : s = ""
      · rw [if_pos hs]
      · rw [if_neg hs, hp]
  · rintro s j rfl hs hp
    rw [loadTransactions, if_neg hs, hp]

/-- C8 witness: the missing payload loads as the empty collection. -/
theorem claim_C8_witness : loadTransactions none = .arr .nil :=
  (claim_C8_amended none).1 (Or.inl rfl)

/-- C10: a successful add stores the submitted description verbatim —
the created record carries the input string with no trimming, including
leading or trailing whitespace. -/
theorem claim_C10_descriptionVerbatim (prev : List Transaction) (amt desc : String)
    (ty : TransactionType) (i d : String) (h1 : jsTrim desc ≠ "")
    (h2 : (parseFloat amt).isNaN = false) :
    handleAddTransaction prev amt desc ty i d
      = some (addTransaction prev ⟨i, parseFloat amt, desc, d, ty⟩)
    ∧ (⟨i, parseFloat amt, desc, d, ty⟩ : Transaction)
        ∈ addTransaction prev ⟨i, parseFloat amt, desc, d, ty⟩ := by
  constructor
  · simp only [handleAddTransaction]
    rw [if_neg (by simp [h1, h2])]
  · have hperm := List.mergeSort_perm (prev ++ [(⟨i, parseFloat amt, desc, d, ty⟩ : Transaction)]) dateGE
    exact hperm.mem_iff.mpr (by simp)

/-- C10 witness: a description with surrounding whitespace is stored
exactly as submitted. -/
theorem claim_C10_witness :
    handleAddTransaction [] "1" " a " .myMoney "i" "d"
      = some (addTransaction [] ⟨"i", parseFloat "1", " a ", "d", .myMoney⟩) :=
  (claim_C10_descriptionVerbatim [] "1" " a " .myMoney "i" "d"
    (by decide) (by decide)).1

end Yael
